import Mathlib

set_option maxRecDepth 100000

/-!
Verification development for the CardioAI ECG interpreter pipeline
(backend/model_service.py, backend/image_processor.py, backend/train/preprocess_data.py).

The Python code is shallowly embedded over exact rational arithmetic:

* `meanQ`, `varQ` model `np.mean` and the square of `np.std` (population, ddof = 0).
* `localMaximaAux`/`plateauScan` model scipy's `_local_maxima_1d` (plateau midpoints).
* `heightOK` models the `height=threshold` filter of `scipy.signal.find_peaks` where
  `threshold = mean + 0.8*std`: in exact arithmetic `v ≥ mean + 0.8·√var` holds iff
  `v ≥ mean` and `25·(v-mean)² ≥ 16·var`, which is decidable over ℚ.
* `sortDesc`/`selectAux` model scipy's `_select_by_peak_distance`: candidates are
  processed in order of decreasing height (numpy argsort of the priorities, walked from
  the highest priority down), and a candidate is kept iff it is at least `distance`
  samples away from every already-kept peak.  On position-sorted inputs this is
  extensionally the same as scipy's contiguous removal scan.
* The external pieces that the claims do not constrain numerically are parameters:
  `filt` (the Butterworth `filtfilt` bandpass of `butter_bandpass_filter`),
  `stdFn` (the floating-point `np.std` of a window), and `classify` (the neural beat
  classifier, returning an is-abnormal flag and a confidence per window).
-/

namespace CardioAI

/-- One level of numpy's pairwise summation: add adjacent pairs. -/
def pairStep : List ℚ → List ℚ
  | [] => []
  | [a] => [a]
  | a :: b :: rest => (a + b) :: pairStep rest

/-- Pairwise summation driver; the first argument is a step budget of at least the
list length (each level at least halves a multi-element list, so the budget never
runs out for the lengths `sumQ` passes). -/
def sumQAux : ℕ → List ℚ → ℚ
  | _, [] => 0
  | _, [a] => a
  | 0, a :: _ :: _ => a
  | fuel + 1, a :: b :: rest => sumQAux fuel (pairStep (a :: b :: rest))

/-- Sum of a list of rationals, grouped pairwise the way `np.sum` accumulates
(in exact arithmetic the grouping is irrelevant: `sumQ_eq_sum`). -/
def sumQ (l : List ℚ) : ℚ := sumQAux l.length l

/-- Arithmetic mean of a list of rationals (`np.mean`); `0` on the empty list. -/
def meanQ (l : List ℚ) : ℚ := sumQ l / l.length

/-- Population variance, the square of `np.std` (ddof = 0); `0` on the empty list. -/
def varQ (l : List ℚ) : ℚ := sumQ (l.map (fun v => (v - meanQ l) ^ 2)) / l.length

/-- Inner plateau scan of scipy's `_local_maxima_1d`: starting at `i`, the first index
that either reaches `iMax` or holds a value different from `v`.  The loop is embedded
with an explicit step budget (first ℕ argument); callers pass a budget of at least
`iMax`, which exceeds the number of steps the scan can take, so the cutoff at budget 0
is never reached. -/
def plateauScan (x : List ℚ) (v : ℚ) (iMax : ℕ) : ℕ → ℕ → ℕ
  | 0, i => i
  | fuel + 1, i =>
    if i < iMax ∧ x.getD i 0 = v then plateauScan x v iMax fuel (i + 1) else i

/-- Main loop of scipy's `_local_maxima_1d`: scan indices `1 ≤ i < iMax`; on a strict
rise followed by a plateau followed by a strict fall, record the plateau midpoint and
resume just past the plateau.  As with `plateauScan`, the loop carries a step budget
that callers choose at least `iMax`, larger than the number of iterations the loop can
perform, so the budget never runs out. -/
def localMaximaAux (x : List ℚ) (iMax : ℕ) : ℕ → ℕ → List ℕ
  | 0, _ => []
  | fuel + 1, i =>
    if i < iMax then
      if x.getD (i - 1) 0 < x.getD i 0 then
        if x.getD (plateauScan x (x.getD i 0) iMax iMax (i + 1)) 0 < x.getD i 0 then
          (i + (plateauScan x (x.getD i 0) iMax iMax (i + 1) - 1)) / 2 ::
            localMaximaAux x iMax fuel (plateauScan x (x.getD i 0) iMax iMax (i + 1) + 1)
        else localMaximaAux x iMax fuel (i + 1)
      else localMaximaAux x iMax fuel (i + 1)
    else []

/-- All local maxima of `x` (scipy `_local_maxima_1d`): interior plateau midpoints. -/
def localMaxima (x : List ℚ) : List ℕ := localMaximaAux x (x.length - 1) (x.length - 1) 1

/-- The dynamic-threshold height test of `preprocess_signal`:
`x[p] ≥ mean(x) + 0.8·std(x)`, expressed exactly over ℚ. -/
def heightOK (x : List ℚ) (p : ℕ) : Bool :=
  decide (meanQ x ≤ x.getD p 0) && decide (16 * varQ x ≤ 25 * (x.getD p 0 - meanQ x) ^ 2)

/-- Local maxima that pass the dynamic height threshold — the candidate set to which
`find_peaks` applies its minimum-distance selection. -/
def candidates (x : List ℚ) : List ℕ := (localMaxima x).filter (fun p => heightOK x p)

/-- Height of the sample at index `p` (the priority used by the distance filter). -/
def heightAt (x : List ℚ) (p : ℕ) : ℚ := x.getD p 0

/-- Insert a position into a list kept in order of decreasing priority. -/
def insertDesc (prio : ℕ → ℚ) (p : ℕ) : List ℕ → List ℕ
  | [] => [p]
  | q :: rest => if prio q ≤ prio p then p :: q :: rest else q :: insertDesc prio p rest

/-- Sort positions by decreasing priority (models numpy's argsort of the peak heights,
walked from the highest priority down, as in `_select_by_peak_distance`). -/
def sortDesc (prio : ℕ → ℚ) : List ℕ → List ℕ
  | [] => []
  | p :: rest => insertDesc prio p (sortDesc prio rest)

/-- `p` and `q` are separated by at least `dist` samples. -/
def farFrom (dist p q : ℕ) : Bool := decide (dist ≤ Nat.dist p q)

/-- Core of scipy's `_select_by_peak_distance`: process candidates in the given
(priority) order, keeping each one iff it is at least `dist` away from every
already-kept peak. -/
def selectAux (dist : ℕ) (kept : List ℕ) : List ℕ → List ℕ
  | [] => kept
  | p :: rest =>
    if kept.all (farFrom dist p) then selectAux dist (kept ++ [p]) rest
    else selectAux dist kept rest

/-- The set of peaks kept by the minimum-distance selection, highest first. -/
def keptPeaks (x : List ℚ) (dist : ℕ) : List ℕ :=
  selectAux dist [] (sortDesc (heightAt x) (candidates x))

/-- `scipy.signal.find_peaks(x, height=mean+0.8*std, distance=dist)`: candidates that
survive the priority-ordered distance selection, in ascending position order. -/
def findPeaksDyn (x : List ℚ) (dist : ℕ) : List ℕ :=
  (candidates x).filter (fun p => decide (p ∈ keptPeaks x dist))

/-- `WINDOW_SIZE` from `train/preprocess_data.py` (one 360-sample beat window). -/
def WINDOW_SIZE : ℕ := 360

/-- The bound check of `preprocess_signal`: `left = p - WINDOW_SIZE//2 ≥ 0` and
`right = p + WINDOW_SIZE//2 < n` (over ℕ, `left ≥ 0` becomes `WINDOW_SIZE/2 ≤ p`). -/
def windowOK (n p : ℕ) : Bool :=
  decide (WINDOW_SIZE / 2 ≤ p) && decide (p + WINDOW_SIZE / 2 < n)

/-- The slice `filtered_ecg[p - 180 : p + 180]` taken for a retained peak. -/
def sliceAt (x : List ℚ) (p : ℕ) : List ℚ :=
  (x.drop (p - WINDOW_SIZE / 2)).take WINDOW_SIZE

/-- Loop body of step 3 of `preprocess_signal`: every detected peak whose window fits,
paired with its (not yet normalized) 360-sample slice, in peak order. -/
def segmentsOf (x : List ℚ) (dist : ℕ) : List (ℕ × List ℚ) :=
  (findPeaksDyn x dist).filterMap
    (fun p => if windowOK x.length p then some (p, sliceAt x p) else none)

/-- The stabilizing epsilon `1e-8` of the per-beat z-score normalization. -/
def eps : ℚ := 1 / 100000000

/-- Per-beat normalization `(seg - mean(seg)) / (std(seg) + 1e-8)`; `stdFn` stands for
the floating-point `np.std`, kept abstract (in exact arithmetic `stdFn seg ≥ 0` and
`(stdFn seg)² = varQ seg`). -/
def normalizeBeat (stdFn : List ℚ → ℚ) (seg : List ℚ) : List ℚ :=
  seg.map (fun v => (v - meanQ seg) / (stdFn seg + eps))

/-- `distance=fs*0.4` as scipy uses it: `find_peaks` rounds the supplied minimal
distance up to an integer, so the effective distance is `⌈2·fs/5⌉`. -/
def minDist (fs : ℕ) : ℕ := (2 * fs + 4) / 5

/-- `preprocess_signal(raw_signal, fs)`: bandpass-filter (`filt fs`), detect peaks with
the dynamic threshold and minimal distance `fs*0.4`, slice and normalize the windows
that fit, and return the windows together with the retained peak indices. -/
def preprocessSignalFs (filt : ℕ → List ℚ → List ℚ) (stdFn : List ℚ → ℚ) (fs : ℕ)
    (raw : List ℚ) : List (List ℚ) × List ℕ :=
  ((segmentsOf (filt fs raw) (minDist fs)).map (fun pr => normalizeBeat stdFn pr.2),
   (segmentsOf (filt fs raw) (minDist fs)).map (fun pr => pr.1))

/-- A diagnostic report as `predict` returns it.  The two sentinel dictionaries of
`predict` carry no `anomalyIndices` key; field presence is modeled with `Option`,
`none` meaning the key is absent. -/
structure Report where
  totalBeats : ℕ
  abnormalBeats : ℕ
  diagnosis : String
  riskLevel : String
  confidence : ℚ
  anomalyIndices : Option (List ℕ)
deriving DecidableEq, Repr

/-- Round half to even, the mode of Python's builtin `round` in exact arithmetic. -/
def rndHalfEven (x : ℚ) : ℤ :=
  if x - ⌊x⌋ < 1 / 2 then ⌊x⌋
  else if 1 / 2 < x - ⌊x⌋ then ⌊x⌋ + 1
  else if ⌊x⌋ % 2 = 0 then ⌊x⌋ else ⌊x⌋ + 1

/-- `round(value, 1)` of `predict`'s overall confidence. -/
def round1 (x : ℚ) : ℚ := (rndHalfEven (x * 10) : ℚ) / 10

/-- Lines 92–104 of `model_service.py`: diagnosis text and risk level from the number
of arrhythmic beats `a` out of `n` (percentage comparison done over ℚ). -/
def diagRisk (a n : ℕ) : String × String :=
  if 0 < a then
    if 15 < (a : ℚ) / (n : ℚ) * 100 then
      ("Frequent Arrhythmia Detected. Please consult a cardiologist immediately.", "High")
    else ("Occasional Ectopic/Abnormal beats detected.", "Medium")
  else ("Normal Sinus Rhythm", "Low")

/-- The `"Error: Signal too short."` sentinel dictionary of `predict`. -/
def tooShortReport : Report :=
  { totalBeats := 0, abnormalBeats := 0, diagnosis := "Error: Signal too short.",
    riskLevel := "Unknown", confidence := 0, anomalyIndices := none }

/-- The `"Could not detect any clear heartbeats."` sentinel dictionary of `predict`. -/
def noBeatsReport : Report :=
  { totalBeats := 0, abnormalBeats := 0,
    diagnosis := "Could not detect any clear heartbeats.",
    riskLevel := "Unknown", confidence := 0, anomalyIndices := none }

/-- `predict`, but with the sampling rate passed to `preprocess_signal` explicit.
`classify` stands for the neural model: per normalized window it yields the
is-arrhythmia flag (`predicted_class == 1`) and the softmax confidence. -/
def predictAtRate (filt : ℕ → List ℚ → List ℚ) (stdFn : List ℚ → ℚ)
    (classify : List ℚ → Bool × ℚ) (fs : ℕ) (raw : List ℚ) : Report :=
  if raw.length < 360 then tooShortReport
  else
    if (preprocessSignalFs filt stdFn fs raw).1.length = 0 then noBeatsReport
    else
      { totalBeats := ((preprocessSignalFs filt stdFn fs raw).1.map classify).length,
        abnormalBeats :=
          ((((preprocessSignalFs filt stdFn fs raw).1.map classify).map
            (fun r => r.1)).filter (fun b => b = true)).length,
        diagnosis :=
          (diagRisk
            ((((preprocessSignalFs filt stdFn fs raw).1.map classify).map
              (fun r => r.1)).filter (fun b => b = true)).length
            ((preprocessSignalFs filt stdFn fs raw).1.map classify).length).1,
        riskLevel :=
          (diagRisk
            ((((preprocessSignalFs filt stdFn fs raw).1.map classify).map
              (fun r => r.1)).filter (fun b => b = true)).length
            ((preprocessSignalFs filt stdFn fs raw).1.map classify).length).2,
        confidence :=
          round1 (meanQ (((preprocessSignalFs filt stdFn fs raw).1.map classify).map
            (fun r => r.2)) * 100),
        anomalyIndices :=
          some (((preprocessSignalFs filt stdFn fs raw).2.zip
              (((preprocessSignalFs filt stdFn fs raw).1.map classify).map
                (fun r => r.1))).filterMap
            (fun pl => if pl.2 then some pl.1 else none)) }

/-- `predict(raw_signal)` of `model_service.py`: calls `preprocess_signal` with its
default sampling rate `fs = 360`. -/
def predict (filt : ℕ → List ℚ → List ℚ) (stdFn : List ℚ → ℚ)
    (classify : List ℚ → Bool × ℚ) (raw : List ℚ) : Report :=
  predictAtRate filt stdFn classify 360 raw

/-!
Embedding of `image_processor.py`, `process_image`, from the binarized image on.
Steps 1–3 (PIL decode, grayscale, Otsu threshold, morphological opening) are opaque
library calls producing some binary pixel grid; the claims quantify over every
decodable image, so the embedding quantifies over every binary grid `cols`
(one inner list of foreground flags per pixel column, indexed by row).
-/

/-- Foreground row indices of one column: `np.where(column > 128)[0]`. -/
def fgRows (col : List Bool) : List ℕ :=
  (List.range col.length).filter (fun r => col.getD r false)

/-- Column-scan accumulator of step 4: `height - mean(rows)` when the column holds
line pixels, otherwise the previous value, or `height/2` for a leading empty column. -/
def colVal (hgt : ℚ) (prev : Option ℚ) (col : List Bool) : ℚ :=
  if fgRows col ≠ [] then hgt - meanQ ((fgRows col).map (fun r => (r : ℚ)))
  else match prev with
    | some v => v
    | none => hgt / 2

/-- Step 4 of `process_image`: scan the columns left to right, carrying the previous
column's value for empty columns. -/
def scanCols (hgt : ℚ) : Option ℚ → List (List Bool) → List ℚ
  | _, [] => []
  | prev, c :: cs => colVal hgt prev c :: scanCols hgt (some (colVal hgt prev c)) cs

/-- Smallest element of a list (`np.min`); `0` on the empty list. -/
def listMin : List ℚ → ℚ
  | [] => 0
  | a :: l => l.foldr min a

/-- Largest element of a list (`np.max`); `0` on the empty list. -/
def listMax : List ℚ → ℚ
  | [] => 0
  | a :: l => l.foldr max a

/-- Step 5 of `process_image`: min-max normalization to `[-1, 1]` when `np.ptp` is
nonzero, and the flat-line fallback (pass through unscaled) when it is zero. -/
def minMaxNorm (l : List ℚ) : List ℚ :=
  if listMax l - listMin l ≠ 0 then
    l.map (fun v => 2 * ((v - listMin l) / (listMax l - listMin l)) - 1)
  else l

/-- `np.linspace(0, 1, n)`: `n` equally spaced points from 0 to 1 (`[0]` for `n = 1`). -/
def linspace01 (n : ℕ) : List ℚ :=
  (List.range n).map (fun j : ℕ => if n ≤ 1 then (0 : ℚ) else (j : ℚ) / ((n - 1 : ℕ) : ℚ))

/-- `np.interp` over sample points paired with values (strictly increasing sample
positions): clamp to the end values outside the covered range, linear in between. -/
def interpLin : List (ℚ × ℚ) → ℚ → ℚ
  | [], _ => 0
  | [pr] , _ => pr.2
  | pr0 :: pr1 :: rest, t =>
    if t ≤ pr0.1 then pr0.2
    else if t ≤ pr1.1 then
      pr0.2 + (pr1.2 - pr0.2) * ((t - pr0.1) / (pr1.1 - pr0.1))
    else interpLin (pr1 :: rest) t

/-- Step 6 of `process_image`: resample to exactly `tp` points by linear interpolation
over a normalized `[0,1]` position axis. -/
def resample (l : List ℚ) (tp : ℕ) : List ℚ :=
  (linspace01 tp).map (fun t => interpLin ((linspace01 l.length).zip l) t)

/-- `process_image` from the binarized grid on: column scan, min-max normalization,
resampling to `tp` points. -/
def processImage (hgt : ℚ) (cols : List (List Bool)) (tp : ℕ) : List ℚ :=
  resample (minMaxNorm (scanCols hgt none cols)) tp

/-- A 363-sample signal with a single spike at index 181: one detected peak whose
360-sample window fits inside the signal. -/
def exSpike : List ℚ := List.replicate 181 0 ++ [5] ++ List.replicate 181 0

/-- A 360-sample flat signal with a small spike at index 100 (height 5) and a taller
spike at index 200 (height 10): two candidates 100 samples apart, closer than the
minimum distance 144. -/
def exTwoPeaks : List ℚ :=
  List.replicate 100 0 ++ [5] ++ List.replicate 99 0 ++ [10] ++ List.replicate 159 0

/-- A small binarized test image: 3 pixel columns of height 4; the first two columns
hold one trace pixel each, the last is empty (carry-forward case). -/
def exCols : List (List Bool) :=
  [[false, true, false, false], [false, false, true, false], [false, false, false, false]]

/-! Lemmas about pairwise summation. -/

theorem pairStep_sum : ∀ l : List ℚ, (pairStep l).sum = l.sum
  | [] => rfl
  | [a] => rfl
  | a :: b :: rest => by
    simp only [pairStep, List.sum_cons, pairStep_sum rest]
    ring

theorem pairStep_length : ∀ l : List ℚ, (pairStep l).length = (l.length + 1) / 2
  | [] => rfl
  | [a] => by simp [pairStep]
  | a :: b :: rest => by
    simp only [pairStep, List.length_cons, pairStep_length rest]
    omega

theorem sumQAux_eq_sum : ∀ fuel (l : List ℚ), l.length ≤ fuel + 1 → sumQAux fuel l = l.sum
  | _, [], _ => by simp [sumQAux]
  | _, [a], _ => by simp [sumQAux]
  | 0, a :: b :: rest, h => by simp at h
  | fuel + 1, a :: b :: rest, h => by
    have hlen : (pairStep (a :: b :: rest)).length ≤ fuel + 1 := by
      rw [pairStep_length]
      simp only [List.length_cons] at h ⊢
      omega
    rw [sumQAux, sumQAux_eq_sum fuel (pairStep (a :: b :: rest)) hlen, pairStep_sum]

theorem sumQ_eq_sum (l : List ℚ) : sumQ l = l.sum := by
  rcases l with _ | ⟨a, l⟩
  · rfl
  · exact sumQAux_eq_sum (a :: l).length (a :: l) (by simp)

/-! Helper lemmas about the peak detector. -/

theorem plateauScan_ge (x : List ℚ) (v : ℚ) (iMax : ℕ) :
    ∀ fuel i, i ≤ plateauScan x v iMax fuel i
  | 0, i => le_refl i
  | fuel + 1, i => by
    simp only [plateauScan]
    split
    · exact le_trans (Nat.le_succ i) (plateauScan_ge x v iMax fuel (i + 1))
    · exact le_refl i

theorem plateauScan_le (x : List ℚ) (v : ℚ) (iMax : ℕ) :
    ∀ fuel i, i ≤ iMax → plateauScan x v iMax fuel i ≤ iMax
  | 0, _, h => h
  | fuel + 1, i, h => by
    simp only [plateauScan]
    split
    next hc => exact plateauScan_le x v iMax fuel (i + 1) (by omega)
    next => exact h

theorem localMaximaAux_mem (x : List ℚ) (iMax : ℕ) :
    ∀ fuel i m, m ∈ localMaximaAux x iMax fuel i → i ≤ m ∧ m < iMax
  | 0, i, m, hm => by simp [localMaximaAux] at hm
  | fuel + 1, i, m, hm => by
    have hp := plateauScan_ge x (x.getD i 0) iMax iMax (i + 1)
    simp only [localMaximaAux] at hm
    split at hm
    next h =>
      split at hm
      next =>
        split at hm
        next =>
          have hq := plateauScan_le x (x.getD i 0) iMax iMax (i + 1) (by omega)
          rcases List.mem_cons.mp hm with rfl | hm'
          · omega
          · have := localMaximaAux_mem x iMax fuel
              (plateauScan x (x.getD i 0) iMax iMax (i + 1) + 1) m hm'
            omega
        next =>
          have := localMaximaAux_mem x iMax fuel (i + 1) m hm
          omega
      next =>
        have := localMaximaAux_mem x iMax fuel (i + 1) m hm
        omega
    next => simp at hm

theorem localMaximaAux_sorted (x : List ℚ) (iMax : ℕ) :
    ∀ fuel i, List.Pairwise (· < ·) (localMaximaAux x iMax fuel i)
  | 0, _ => by simp [localMaximaAux]
  | fuel + 1, i => by
    have hp := plateauScan_ge x (x.getD i 0) iMax iMax (i + 1)
    simp only [localMaximaAux]
    split
    next h =>
      split
      next =>
        split
        next =>
          refine List.Pairwise.cons ?_ (localMaximaAux_sorted x iMax fuel
            (plateauScan x (x.getD i 0) iMax iMax (i + 1) + 1))
          intro b hb
          have hb' := localMaximaAux_mem x iMax fuel
            (plateauScan x (x.getD i 0) iMax iMax (i + 1) + 1) b hb
          omega
        next => exact localMaximaAux_sorted x iMax fuel (i + 1)
      next => exact localMaximaAux_sorted x iMax fuel (i + 1)
    next => exact List.Pairwise.nil

theorem candidates_sorted (x : List ℚ) : List.Pairwise (· < ·) (candidates x) :=
  (localMaximaAux_sorted x (x.length - 1) (x.length - 1) 1).sublist (List.filter_sublist _)

theorem candidates_lt (x : List ℚ) : ∀ p ∈ candidates x, p < x.length := by
  intro p hp
  have hp' : p ∈ localMaximaAux x (x.length - 1) (x.length - 1) 1 :=
    List.mem_of_mem_filter (by simpa [candidates, localMaxima] using hp)
  have := localMaximaAux_mem x (x.length - 1) (x.length - 1) 1 p hp'
  omega

theorem mem_insertDesc (prio : ℕ → ℚ) (p a : ℕ) :
    ∀ l, a ∈ insertDesc prio p l ↔ a = p ∨ a ∈ l
  | [] => by simp [insertDesc]
  | q :: rest => by
    simp only [insertDesc]
    split
    · simp [List.mem_cons]
    · simp only [List.mem_cons, mem_insertDesc prio p a rest]
      tauto

theorem mem_sortDesc (prio : ℕ → ℚ) (a : ℕ) : ∀ l, a ∈ sortDesc prio l ↔ a ∈ l
  | [] => Iff.rfl
  | p :: rest => by
    simp only [sortDesc, mem_insertDesc, mem_sortDesc prio a rest, List.mem_cons]

theorem pairwise_insertDesc (prio : ℕ → ℚ) (p : ℕ) :
    ∀ l, List.Pairwise (fun a b => prio b ≤ prio a) l →
      List.Pairwise (fun a b => prio b ≤ prio a) (insertDesc prio p l)
  | [], _ => by simp [insertDesc]
  | q :: rest, h => by
    simp only [insertDesc]
    split
    next hq =>
      refine List.Pairwise.cons ?_ h
      intro b hb
      rcases List.mem_cons.mp hb with rfl | hb'
      · exact hq
      · exact le_trans (List.rel_of_pairwise_cons h hb') hq
    next hq =>
      refine List.Pairwise.cons ?_ (pairwise_insertDesc prio p rest h.of_cons)
      intro b hb
      rcases (mem_insertDesc prio p b rest).mp hb with rfl | hb'
      · exact le_of_not_le hq
      · exact List.rel_of_pairwise_cons h hb'

theorem pairwise_sortDesc (prio : ℕ → ℚ) :
    ∀ l, List.Pairwise (fun a b => prio b ≤ prio a) (sortDesc prio l)
  | [] => List.Pairwise.nil
  | p :: rest => pairwise_insertDesc prio p _ (pairwise_sortDesc prio rest)

theorem selectAux_mem (dist : ℕ) :
    ∀ order kept a, a ∈ selectAux dist kept order → a ∈ kept ∨ a ∈ order
  | [], _, a, h => Or.inl h
  | p :: rest, kept, a, h => by
    simp only [selectAux] at h
    split at h
    · rcases selectAux_mem dist rest (kept ++ [p]) a h with h' | h'
      · rcases List.mem_append.mp h' with h'' | h''
        · exact Or.inl h''
        · exact Or.inr (by simp at h''; simp [h''])
      · exact Or.inr (List.mem_cons_of_mem p h')
    · rcases selectAux_mem dist rest kept a h with h' | h'
      · exact Or.inl h'
      · exact Or.inr (List.mem_cons_of_mem p h')

theorem selectAux_keeps (dist : ℕ) :
    ∀ order kept a, a ∈ kept → a ∈ selectAux dist kept order
  | [], _, _, h => h
  | p :: rest, kept, a, h => by
    simp only [selectAux]
    split
    · exact selectAux_keeps dist rest (kept ++ [p]) a (List.mem_append.mpr (Or.inl h))
    · exact selectAux_keeps dist rest kept a h

theorem selectAux_sep (dist : ℕ) :
    ∀ order kept, (∀ a ∈ kept, ∀ b ∈ kept, a ≠ b → dist ≤ Nat.dist a b) →
      ∀ a ∈ selectAux dist kept order, ∀ b ∈ selectAux dist kept order,
        a ≠ b → dist ≤ Nat.dist a b
  | [], _, hk, a, ha, b, hb, hne => hk a ha b hb hne
  | p :: rest, kept, hk, a, ha, b, hb, hne => by
    revert ha hb
    simp only [selectAux]
    split
    next hall =>
      refine fun ha hb => selectAux_sep dist rest (kept ++ [p]) ?_ a ha b hb hne
      intro c hc d hd hcd
      rcases List.mem_append.mp hc with hc' | hc' <;>
        rcases List.mem_append.mp hd with hd' | hd'
      · exact hk c hc' d hd' hcd
      · have hd'' : d = p := by simpa using hd'
        subst hd''
        have := List.all_eq_true.mp hall c hc'
        simp only [farFrom, decide_eq_true_eq] at this
        simp only [Nat.dist] at this ⊢
        omega
      · have hc'' : c = p := by simpa using hc'
        subst hc''
        have := List.all_eq_true.mp hall d hd'
        simp only [farFrom, decide_eq_true_eq] at this
        simp only [Nat.dist] at this ⊢
        omega
      · have hc'' : c = p := by simpa using hc'
        have hd'' : d = p := by simpa using hd'
        exact absurd (hc''.trans hd''.symm) hcd
    next =>
      exact fun ha hb => selectAux_sep dist rest kept hk a ha b hb hne

theorem selectAux_reject (dist : ℕ) (prio : ℕ → ℚ) :
    ∀ order kept, List.Pairwise (fun a b => prio b ≤ prio a) order →
      (∀ k ∈ kept, ∀ q ∈ order, prio q ≤ prio k) →
      ∀ q ∈ order, q ∉ selectAux dist kept order →
        ∃ r ∈ selectAux dist kept order, Nat.dist q r < dist ∧ prio q ≤ prio r
  | [], _, _, _, q, hq, _ => absurd hq (List.not_mem_nil q)
  | p :: rest, kept, hord, hk, q, hq, hout => by
    revert hout
    simp only [selectAux]
    split
    next hall =>
      intro hout
      rcases List.mem_cons.mp hq with rfl | hq'
      · exact absurd (selectAux_keeps dist rest (kept ++ [q]) q
          (List.mem_append.mpr (Or.inr (by simp)))) hout
      · refine selectAux_reject dist prio rest (kept ++ [p]) hord.of_cons ?_ q hq' hout
        intro k hkmem q' hq'mem
        rcases List.mem_append.mp hkmem with hk' | hk'
        · exact hk k hk' q' (List.mem_cons_of_mem p hq'mem)
        · have : k = p := by simpa using hk'
          subst this
          exact List.rel_of_pairwise_cons hord hq'mem
    next hall =>
      intro hout
      rcases List.mem_cons.mp hq with rfl | hq'
      · have : ∃ r ∈ kept, ¬ farFrom dist q r = true := by
          by_contra hcon
          push_neg at hcon
          exact hall (List.all_eq_true.mpr hcon)
        obtain ⟨r, hr, hfar⟩ := this
        refine ⟨r, selectAux_keeps dist rest kept r hr, ?_, hk r hr q (List.mem_cons_self q rest)⟩
        simp only [farFrom, decide_eq_true_eq] at hfar
        omega
      · exact selectAux_reject dist prio rest kept hord.of_cons
          (fun k hkm q' hq'm => hk k hkm q' (List.mem_cons_of_mem p hq'm)) q hq' hout

theorem keptPeaks_sub (x : List ℚ) (dist : ℕ) : ∀ p ∈ keptPeaks x dist, p ∈ candidates x := by
  intro p hp
  rcases selectAux_mem dist _ [] p hp with h | h
  · exact absurd h (List.not_mem_nil p)
  · exact (mem_sortDesc (heightAt x) p _).mp h

theorem mem_findPeaksDyn (x : List ℚ) (dist p : ℕ) :
    p ∈ findPeaksDyn x dist ↔ p ∈ keptPeaks x dist := by
  constructor
  · intro h
    have := (List.mem_filter.mp h).2
    simpa using this
  · intro h
    exact List.mem_filter.mpr ⟨keptPeaks_sub x dist p h, by simpa using h⟩

theorem findPeaksDyn_sub (x : List ℚ) (dist : ℕ) :
    ∀ p ∈ findPeaksDyn x dist, p ∈ candidates x :=
  fun p hp => List.mem_of_mem_filter hp

theorem findPeaksDyn_sorted (x : List ℚ) (dist : ℕ) :
    List.Pairwise (· < ·) (findPeaksDyn x dist) :=
  (candidates_sorted x).sublist (List.filter_sublist _)

theorem findPeaksDyn_sep (x : List ℚ) (dist : ℕ) :
    List.Pairwise (fun a b => a < b ∧ a + dist ≤ b) (findPeaksDyn x dist) := by
  refine (findPeaksDyn_sorted x dist).imp_of_mem ?_
  intro a b ha hb hab
  have hsep := selectAux_sep dist (sortDesc (heightAt x) (candidates x)) []
    (by intro c hc; exact absurd hc (List.not_mem_nil c)) a
    ((mem_findPeaksDyn x dist a).mp ha) b ((mem_findPeaksDyn x dist b).mp hb)
    (Nat.ne_of_lt hab)
  simp only [Nat.dist] at hsep
  omega

/-! Helper lemmas about beat segmentation. -/

theorem mem_segmentsOf (x : List ℚ) (dist p : ℕ) (w : List ℚ) :
    (p, w) ∈ segmentsOf x dist ↔
      p ∈ findPeaksDyn x dist ∧ windowOK x.length p = true ∧ w = sliceAt x p := by
  simp only [segmentsOf, List.mem_filterMap]
  constructor
  · rintro ⟨a, ha, hfa⟩
    split at hfa
    next hok =>
      simp only [Option.some.injEq, Prod.mk.injEq] at hfa
      obtain ⟨rfl, rfl⟩ := hfa
      exact ⟨ha, hok, rfl⟩
    next => simp at hfa
  · rintro ⟨hp, hw, rfl⟩
    exact ⟨p, hp, by rw [if_pos hw]⟩

theorem windowOK_iff (n p : ℕ) : windowOK n p = true ↔ 180 ≤ p ∧ p + 180 < n := by
  simp [windowOK, WINDOW_SIZE]

theorem sliceAt_length (x : List ℚ) (p : ℕ) (h1 : 180 ≤ p) (h2 : p + 180 < x.length) :
    (sliceAt x p).length = 360 := by
  simp only [sliceAt, List.length_take, List.length_drop, WINDOW_SIZE]
  omega

/-- C1: a detected peak `p` is retained by the segmenter exactly when its 360-sample
window centered on it — spanning samples `p - 180` through `p + 180` — lies fully
within the bounds of the filtered signal, and every emitted window has length exactly
360; out-of-bounds peaks are discarded, never padded. -/
theorem window_retention_iff_in_bounds (x : List ℚ) (dist p : ℕ)
    (hp : p ∈ findPeaksDyn x dist) :
    ((∃ w, (p, w) ∈ segmentsOf x dist) ↔ (180 ≤ p ∧ p + 180 < x.length)) ∧
    ∀ w, (p, w) ∈ segmentsOf x dist → w.length = 360 := by
  constructor
  · constructor
    · rintro ⟨w, hw⟩
      exact (windowOK_iff x.length p).mp ((mem_segmentsOf x dist p w).mp hw).2.1
    · intro hb
      exact ⟨sliceAt x p, (mem_segmentsOf x dist p (sliceAt x p)).mpr
        ⟨hp, (windowOK_iff x.length p).mpr hb, rfl⟩⟩
  · intro w hw
    obtain ⟨-, hok, rfl⟩ := (mem_segmentsOf x dist p w).mp hw
    obtain ⟨h1, h2⟩ := (windowOK_iff x.length p).mp hok
    exact sliceAt_length x p h1 h2

/-- Witness for C1 at a concrete signal: the peak at index 181 of `exSpike` is
retained with a full-length window. -/
theorem window_retention_iff_in_bounds_witness :
    ∃ w, (181, w) ∈ segmentsOf exSpike 144 :=
  (window_retention_iff_in_bounds exSpike 144 181 (by with_unfolding_all decide)).1.mpr (by decide)

/-- C2 counterexample: on `exTwoPeaks` the earliest sufficiently prominent candidate
(index 100, above the dynamic threshold) conflicts with the later, taller candidate at
index 200, and `find_peaks` accepts the taller one, not the earliest. -/
theorem earliest_candidate_not_accepted :
    100 ∈ candidates exTwoPeaks ∧ 100 ∉ findPeaksDyn exTwoPeaks 144 ∧
    findPeaksDyn exTwoPeaks 144 = [200] := by with_unfolding_all decide

/-- C2 amended: peak acceptance is greedy in order of decreasing height, not left to
right — every accepted peak is a sufficiently prominent candidate, accepted peaks are
pairwise separated by at least the minimum distance, and every rejected candidate lies
within the minimum distance of an accepted peak that is at least as tall. -/
theorem peak_selection_by_height (x : List ℚ) (dist : ℕ) :
    (∀ p ∈ findPeaksDyn x dist, p ∈ candidates x) ∧
    List.Pairwise (fun a b => a < b ∧ a + dist ≤ b) (findPeaksDyn x dist) ∧
    (∀ q ∈ candidates x, q ∉ findPeaksDyn x dist →
      ∃ r ∈ findPeaksDyn x dist, Nat.dist q r < dist ∧ heightAt x q ≤ heightAt x r) := by
  refine ⟨findPeaksDyn_sub x dist, findPeaksDyn_sep x dist, ?_⟩
  intro q hq hnot
  have hq' : q ∈ sortDesc (heightAt x) (candidates x) :=
    (mem_sortDesc (heightAt x) q (candidates x)).mpr hq
  have hnk : q ∉ keptPeaks x dist := fun hk => hnot ((mem_findPeaksDyn x dist q).mpr hk)
  obtain ⟨r, hr, hd, hpr⟩ := selectAux_reject dist (heightAt x)
    (sortDesc (heightAt x) (candidates x)) []
    (pairwise_sortDesc (heightAt x) (candidates x))
    (fun k hk => absurd hk (List.not_mem_nil k)) q hq' hnk
  exact ⟨r, (mem_findPeaksDyn x dist r).mpr hr, hd, hpr⟩

/-- Witness for the amended C2 at a concrete signal: the rejected candidate 100 of
`exTwoPeaks` is within the minimum distance of an accepted peak at least as tall. -/
theorem peak_selection_by_height_witness :
    ∃ r ∈ findPeaksDyn exTwoPeaks 144, Nat.dist 100 r < 144 ∧
      heightAt exTwoPeaks 100 ≤ heightAt exTwoPeaks r :=
  (peak_selection_by_height exTwoPeaks 144).2.2 100 (by with_unfolding_all decide) (by with_unfolding_all decide)

/-- C5: the detected peak set at the pipeline's minimum distance (0.4 × 360 = 144
samples) is strictly increasing, consecutive peaks differ by at least 144 samples, and
every peak index lies within signal bounds. -/
theorem peakset_invariants (x : List ℚ) :
    List.Pairwise (fun a b => a < b ∧ a + minDist 360 ≤ b) (findPeaksDyn x (minDist 360)) ∧
    minDist 360 = 144 ∧
    ∀ p ∈ findPeaksDyn x (minDist 360), p < x.length :=
  ⟨findPeaksDyn_sep x (minDist 360), by decide,
   fun p hp => candidates_lt x p (findPeaksDyn_sub x (minDist 360) p hp)⟩

/-- C3: the diagnosis/risk decision table of the synthesizer — zero abnormal beats
give Normal Sinus Rhythm with Low risk; a positive count at most 15 percent gives the
occasional-ectopic text with Medium risk; above 15 percent gives the
frequent-arrhythmia text with High risk. -/
theorem diagnosis_decision_table (a n : ℕ) (hn : 1 ≤ n) (han : a ≤ n) :
    (a = 0 → diagRisk a n = ("Normal Sinus Rhythm", "Low")) ∧
    (0 < a → (a : ℚ) / (n : ℚ) * 100 ≤ 15 →
      diagRisk a n = ("Occasional Ectopic/Abnormal beats detected.", "Medium")) ∧
    (0 < a → 15 < (a : ℚ) / (n : ℚ) * 100 →
      diagRisk a n =
        ("Frequent Arrhythmia Detected. Please consult a cardiologist immediately.",
         "High")) := by
  refine ⟨?_, ?_, ?_⟩
  · intro ha
    subst ha
    simp [diagRisk]
  · intro ha hle
    rw [diagRisk, if_pos ha, if_neg (not_lt.mpr hle)]
  · intro ha hlt
    rw [diagRisk, if_pos ha, if_pos hlt]

/-- Witness for C3: one abnormal beat out of ten (10 percent) yields the Medium-risk
report. -/
theorem diagnosis_decision_table_witness :
    diagRisk 1 10 = ("Occasional Ectopic/Abnormal beats detected.", "Medium") :=
  (diagnosis_decision_table 1 10 (by norm_num) (by norm_num)).2.1 (by norm_num)
    (by norm_num)

/-- C7: any input signal shorter than 360 samples produces the too-short sentinel
report — zero counts, Unknown risk, confidence 0 — for every filter, std and
classifier, i.e. without filtering, segmenting or classifying. -/
theorem too_short_sentinel (filt : ℕ → List ℚ → List ℚ) (stdFn : List ℚ → ℚ)
    (classify : List ℚ → Bool × ℚ) (raw : List ℚ) (h : raw.length < 360) :
    predict filt stdFn classify raw = tooShortReport := by
  rw [predict, predictAtRate, if_pos h]

/-- Witness for C7: the empty signal yields the too-short sentinel. -/
theorem too_short_sentinel_witness :
    predict (fun _ s => s) (fun _ => 0) (fun _ => (false, 0)) [] = tooShortReport :=
  too_short_sentinel (fun _ s => s) (fun _ => 0) (fun _ => (false, 0)) [] (by simp)

/-- C9: `predict` always runs the preprocessing pipeline at the fixed sampling rate
360 Hz — the filter is invoked at 360 Hz and the minimum peak separation is
0.4 × 360 = 144 samples — so no declared sampling rate of the input can influence
the result. -/
theorem fixed_sampling_rate (filt : ℕ → List ℚ → List ℚ) (stdFn : List ℚ → ℚ)
    (classify : List ℚ → Bool × ℚ) (raw : List ℚ) :
    predict filt stdFn classify raw = predictAtRate filt stdFn classify 360 raw ∧
    minDist 360 = 144 :=
  ⟨rfl, by norm_num [minDist]⟩

theorem segmentsOf_eq_nil_of_length360 (y : List ℚ) (dist : ℕ) (hy : y.length = 360) :
    segmentsOf y dist = [] := by
  rw [segmentsOf, List.filterMap_eq_nil_iff]
  intro p hp
  rw [if_neg]
  rw [windowOK_iff, hy]
  omega

/-- C10: a signal of length exactly 360 — the smallest length the too-short guard
admits — can never retain a beat window (the bound checks `p ≥ 180` and
`p + 180 < 360` are jointly unsatisfiable), so the pipeline returns the
no-clear-heartbeats sentinel whenever the filter preserves length. -/
theorem length360_no_beats (filt : ℕ → List ℚ → List ℚ) (stdFn : List ℚ → ℚ)
    (classify : List ℚ → Bool × ℚ) (raw : List ℚ) (hlen : raw.length = 360)
    (hfilt : (filt 360 raw).length = raw.length) :
    predict filt stdFn classify raw = noBeatsReport := by
  have h0 : (preprocessSignalFs filt stdFn 360 raw).1.length = 0 := by
    simp only [preprocessSignalFs, List.length_map]
    rw [segmentsOf_eq_nil_of_length360 (filt 360 raw) (minDist 360) (by omega)]
    rfl
  rw [predict, predictAtRate, if_neg (by omega), if_pos h0]

/-- Witness for C10: the flat 360-sample signal with the identity filter yields the
no-clear-heartbeats sentinel. -/
theorem length360_no_beats_witness :
    predict (fun _ s => s) (fun _ => 0) (fun _ => (false, 0)) (List.replicate 360 0) =
      noBeatsReport :=
  length360_no_beats (fun _ s => s) (fun _ => 0) (fun _ => (false, 0))
    (List.replicate 360 0) (by simp) (by simp)

/-! Helper lemmas for the anomaly-indices claim. -/

theorem map_fst_filterMap_window (x : List ℚ) :
    ∀ l : List ℕ,
      (l.filterMap
        (fun p => if windowOK x.length p then some (p, sliceAt x p) else none)).map
          (fun pr => pr.1) =
        l.filter (fun p => windowOK x.length p)
  | [] => rfl
  | p :: ps => by
    by_cases h : windowOK x.length p = true
    · simp [List.filterMap_cons, List.filter_cons, h, map_fst_filterMap_window x ps]
    · simp [List.filterMap_cons, List.filter_cons, h, map_fst_filterMap_window x ps]

theorem segments_fst_sorted (x : List ℚ) (dist : ℕ) :
    List.Pairwise (· < ·) ((segmentsOf x dist).map (fun pr => pr.1)) := by
  rw [segmentsOf, map_fst_filterMap_window]
  exact (findPeaksDyn_sorted x dist).sublist (List.filter_sublist _)

theorem mem_of_mem_zipFilter (ps : List ℕ) (bs : List Bool) (i : ℕ)
    (h : i ∈ (ps.zip bs).filterMap (fun pl => if pl.2 then some pl.1 else none)) :
    i ∈ ps := by
  obtain ⟨⟨a, b⟩, hmem, hval⟩ := List.mem_filterMap.mp h
  split at hval
  · obtain rfl := Option.some.inj hval
    exact (List.of_mem_zip hmem).1
  · simp at hval

theorem mem_zipFilter_iff (ps : List ℕ) (bs : List Bool) (i : ℕ) :
    i ∈ (ps.zip bs).filterMap (fun pl => if pl.2 then some pl.1 else none) ↔
      (i, true) ∈ ps.zip bs := by
  simp only [List.mem_filterMap]
  constructor
  · rintro ⟨⟨a, b⟩, hmem, hval⟩
    split at hval
    next hb =>
      obtain rfl := Option.some.inj hval
      simp only at hb
      rw [hb] at hmem
      exact hmem
    next => simp at hval
  · intro h
    exact ⟨(i, true), h, by simp⟩

theorem zipFilter_sorted :
    ∀ (ps : List ℕ) (bs : List Bool), List.Pairwise (· < ·) ps →
      List.Pairwise (· < ·)
        ((ps.zip bs).filterMap (fun pl => if pl.2 then some pl.1 else none))
  | [], _, _ => by simp
  | _ :: _, [], _ => by simp
  | p :: ps, b :: bs, h => by
    simp only [List.zip_cons_cons, List.filterMap_cons]
    cases b with
    | false => simpa using zipFilter_sorted ps bs h.of_cons
    | true =>
      simp only [if_pos]
      refine List.Pairwise.cons ?_ (zipFilter_sorted ps bs h.of_cons)
      intro q hq
      exact List.rel_of_pairwise_cons h (mem_of_mem_zipFilter ps bs q hq)

/-- C4 counterexample: the too-short sentinel report carries no `anomalyIndices` key
at all (modeled as `none`), so it is not the case that every report — the sentinels
included — contains an (empty) anomaly-index list. -/
theorem sentinel_lacks_anomaly_indices :
    (predict (fun _ s => s) (fun _ => 0) (fun _ => (false, 0))
      (List.replicate 100 0)).anomalyIndices = none := rfl

/-- C4 amended: a report produced by actual classification carries `anomalyIndices` —
the ascending list of exactly the peak indices of the beats classified abnormal — but
the two sentinel reports (too-short signal and zero beats) omit the field. -/
theorem anomaly_indices_spec (filt : ℕ → List ℚ → List ℚ) (stdFn : List ℚ → ℚ)
    (classify : List ℚ → Bool × ℚ) (raw : List ℚ) :
    (raw.length < 360 → (predict filt stdFn classify raw).anomalyIndices = none) ∧
    (360 ≤ raw.length → (preprocessSignalFs filt stdFn 360 raw).1.length = 0 →
      (predict filt stdFn classify raw).anomalyIndices = none) ∧
    (360 ≤ raw.length → (preprocessSignalFs filt stdFn 360 raw).1.length ≠ 0 →
      ∃ l, (predict filt stdFn classify raw).anomalyIndices = some l ∧
        List.Pairwise (· < ·) l ∧
        ∀ i, i ∈ l ↔
          (i, true) ∈ (preprocessSignalFs filt stdFn 360 raw).2.zip
            (((preprocessSignalFs filt stdFn 360 raw).1.map classify).map
              (fun r => r.1))) := by
  refine ⟨?_, ?_, ?_⟩
  · intro h
    rw [predict, predictAtRate, if_pos h]
    rfl
  · intro h h0
    rw [predict, predictAtRate, if_neg (by omega), if_pos h0]
    rfl
  · intro h h0
    rw [predict, predictAtRate, if_neg (by omega), if_neg h0]
    refine ⟨_, rfl, ?_, ?_⟩
    · exact zipFilter_sorted _ _ (segments_fst_sorted (filt 360 raw) (minDist 360))
    · intro i
      exact mem_zipFilter_iff _ _ i

/-- Witness for the amended C4: on `exSpike` with an all-abnormal classifier the
report carries a sorted anomaly-index list characterized by the abnormal beats. -/
theorem anomaly_indices_spec_witness :
    ∃ l, (predict (fun _ s => s) (fun _ => 0) (fun _ => (true, 1))
        exSpike).anomalyIndices = some l ∧
      List.Pairwise (· < ·) l ∧
      ∀ i, i ∈ l ↔
        (i, true) ∈ (preprocessSignalFs (fun _ s => s) (fun _ => 0) 360 exSpike).2.zip
          (((preprocessSignalFs (fun _ s => s) (fun _ => 0) 360 exSpike).1.map
            (fun _ => ((true : Bool), (1 : ℚ)))).map (fun r => r.1)) :=
  (anomaly_indices_spec (fun _ s => s) (fun _ => 0) (fun _ => (true, 1)) exSpike).2.2
    (by with_unfolding_all decide) (by with_unfolding_all decide)

/-! Helper lemmas for the per-beat normalization claim. -/

theorem sum_map_sub_const (c : ℚ) :
    ∀ l : List ℚ, (l.map (fun v => v - c)).sum = l.sum - l.length * c
  | [] => by simp
  | a :: l => by
    simp only [List.map_cons, List.sum_cons, sum_map_sub_const c l, List.length_cons]
    push_cast
    ring

theorem sum_map_mul_const (c : ℚ) :
    ∀ l : List ℚ, (l.map (fun v => v * c)).sum = l.sum * c
  | [] => by simp
  | a :: l => by
    simp only [List.map_cons, List.sum_cons, sum_map_mul_const c l]
    ring

theorem sum_map_sub_mean (l : List ℚ) (hl : l.length ≠ 0) :
    (l.map (fun v => v - meanQ l)).sum = 0 := by
  have hc : ((l.length : ℚ)) ≠ 0 := Nat.cast_ne_zero.mpr hl
  rw [sum_map_sub_const, meanQ, sumQ_eq_sum]
  field_simp

theorem normalizeBeat_sum (stdFn : List ℚ → ℚ) (seg : List ℚ) (h : seg.length ≠ 0) :
    (normalizeBeat stdFn seg).sum = 0 := by
  rw [normalizeBeat]
  have hf : (fun v => (v - meanQ seg) / (stdFn seg + eps)) =
      fun v => (v - meanQ seg) * (stdFn seg + eps)⁻¹ := by
    funext v
    rw [div_eq_mul_inv]
  rw [hf, show seg.map (fun v => (v - meanQ seg) * (stdFn seg + eps)⁻¹) =
      (seg.map (fun v => v - meanQ seg)).map (fun u => u * (stdFn seg + eps)⁻¹) by
    rw [List.map_map]
    rfl]
  rw [sum_map_mul_const, sum_map_sub_mean seg h, zero_mul]

theorem normalizeBeat_mean (stdFn : List ℚ → ℚ) (seg : List ℚ) (h : seg.length ≠ 0) :
    meanQ (normalizeBeat stdFn seg) = 0 := by
  rw [meanQ, sumQ_eq_sum, normalizeBeat_sum stdFn seg h, zero_div]

theorem normalizeBeat_var (stdFn : List ℚ → ℚ) (seg : List ℚ) (h : seg.length ≠ 0) :
    varQ (normalizeBeat stdFn seg) = varQ seg / (stdFn seg + eps) ^ 2 := by
  have hmean := normalizeBeat_mean stdFn seg h
  rw [varQ, sumQ_eq_sum, hmean]
  simp only [sub_zero]
  rw [normalizeBeat, List.map_map, List.length_map]
  have hf : ((fun v => v ^ 2) ∘ fun v => (v - meanQ seg) / (stdFn seg + eps)) =
      fun v => (v - meanQ seg) ^ 2 * ((stdFn seg + eps) ^ 2)⁻¹ := by
    funext v
    simp only [Function.comp_apply]
    rw [div_pow, div_eq_mul_inv]
  rw [hf, show seg.map (fun v => (v - meanQ seg) ^ 2 * ((stdFn seg + eps) ^ 2)⁻¹) =
      (seg.map (fun v => (v - meanQ seg) ^ 2)).map
        (fun u => u * ((stdFn seg + eps) ^ 2)⁻¹) by
    rw [List.map_map]
    rfl]
  rw [sum_map_mul_const, varQ, sumQ_eq_sum]
  ring

/-- C8: every retained beat window is z-score normalized independently by its own mean
and standard deviation plus epsilon 1e-8: in exact arithmetic the emitted window has
length exactly 360 and mean 0, its standard deviation is σ/(σ+ε) (stated through the
variance), and the divisor σ + ε is never zero, a perfectly flat window included. -/
theorem normalized_window_stats (x : List ℚ) (dist : ℕ) (stdFn : List ℚ → ℚ)
    (p : ℕ) (w : List ℚ) (hw : (p, w) ∈ segmentsOf x dist) (hstd : 0 ≤ stdFn w) :
    (normalizeBeat stdFn w).length = 360 ∧
    meanQ (normalizeBeat stdFn w) = 0 ∧
    stdFn w + eps ≠ 0 ∧
    (stdFn w ^ 2 = varQ w →
      varQ (normalizeBeat stdFn w) = (stdFn w / (stdFn w + eps)) ^ 2) := by
  have hlen : w.length = 360 := by
    obtain ⟨-, hok, rfl⟩ := (mem_segmentsOf x dist p w).mp hw
    obtain ⟨h1, h2⟩ := (windowOK_iff x.length p).mp hok
    exact sliceAt_length x p h1 h2
  have h0 : w.length ≠ 0 := by omega
  have heps : (0 : ℚ) < eps := by norm_num [eps]
  refine ⟨?_, normalizeBeat_mean stdFn w h0, by linarith, ?_⟩
  · rw [normalizeBeat, List.length_map, hlen]
  · intro hvar
    rw [normalizeBeat_var stdFn w h0, ← hvar, div_pow]

/-- Witness for C8: the window retained around the peak of `exSpike`, normalized with
an exact std function for it. -/
theorem normalized_window_stats_witness :
    (normalizeBeat (fun _ => 0) (sliceAt exSpike 181)).length = 360 ∧
    meanQ (normalizeBeat (fun _ => 0) (sliceAt exSpike 181)) = 0 ∧
    (fun (_ : List ℚ) => (0 : ℚ)) (sliceAt exSpike 181) + eps ≠ 0 ∧
    ((fun (_ : List ℚ) => (0 : ℚ)) (sliceAt exSpike 181) ^ 2 = varQ (sliceAt exSpike 181) →
      varQ (normalizeBeat (fun _ => 0) (sliceAt exSpike 181)) =
        ((fun (_ : List ℚ) => (0 : ℚ)) (sliceAt exSpike 181) /
          ((fun (_ : List ℚ) => (0 : ℚ)) (sliceAt exSpike 181) + eps)) ^ 2) :=
  normalized_window_stats exSpike 144 (fun _ => 0) 181 (sliceAt exSpike 181)
    (by with_unfolding_all decide) (by norm_num)

/-! Helper lemmas for the waveform-extraction claim. -/

theorem scanCols_length (hgt : ℚ) :
    ∀ (prev : Option ℚ) (cols : List (List Bool)),
      (scanCols hgt prev cols).length = cols.length
  | _, [] => rfl
  | prev, c :: cs => by
    simp [scanCols, scanCols_length hgt (some (colVal hgt prev c)) cs]

theorem foldr_min_le_init (a : ℚ) : ∀ l : List ℚ, l.foldr min a ≤ a
  | [] => le_refl a
  | b :: l => by
    simp only [List.foldr_cons]
    exact le_trans (min_le_right _ _) (foldr_min_le_init a l)

theorem foldr_min_le_mem (a : ℚ) : ∀ l : List ℚ, ∀ v ∈ l, l.foldr min a ≤ v
  | [], v, hv => absurd hv (List.not_mem_nil v)
  | b :: l, v, hv => by
    simp only [List.foldr_cons]
    rcases List.mem_cons.mp hv with rfl | hv'
    · exact min_le_left _ _
    · exact le_trans (min_le_right _ _) (foldr_min_le_mem a l v hv')

theorem le_foldr_max_init (a : ℚ) : ∀ l : List ℚ, a ≤ l.foldr max a
  | [] => le_refl a
  | b :: l => by
    simp only [List.foldr_cons]
    exact le_trans (le_foldr_max_init a l) (le_max_right _ _)

theorem le_foldr_max_mem (a : ℚ) : ∀ l : List ℚ, ∀ v ∈ l, v ≤ l.foldr max a
  | [], v, hv => absurd hv (List.not_mem_nil v)
  | b :: l, v, hv => by
    simp only [List.foldr_cons]
    rcases List.mem_cons.mp hv with rfl | hv'
    · exact le_max_left _ _
    · exact le_trans (le_foldr_max_mem a l v hv') (le_max_right _ _)

theorem listMin_le (l : List ℚ) (v : ℚ) (hv : v ∈ l) : listMin l ≤ v := by
  rcases l with _ | ⟨a, l⟩
  · exact absurd hv (List.not_mem_nil v)
  · rcases List.mem_cons.mp hv with rfl | hv'
    · exact foldr_min_le_init v l
    · exact foldr_min_le_mem a l v hv'

theorem le_listMax (l : List ℚ) (v : ℚ) (hv : v ∈ l) : v ≤ listMax l := by
  rcases l with _ | ⟨a, l⟩
  · exact absurd hv (List.not_mem_nil v)
  · rcases List.mem_cons.mp hv with rfl | hv'
    · exact le_foldr_max_init v l
    · exact le_foldr_max_mem a l v hv'

theorem minMaxNorm_bounds (l : List ℚ) (hd : listMax l - listMin l ≠ 0) :
    ∀ v ∈ minMaxNorm l, -1 ≤ v ∧ v ≤ 1 := by
  intro v hv
  rw [minMaxNorm, if_pos hd] at hv
  obtain ⟨u, hu, rfl⟩ := List.mem_map.mp hv
  have h1 := listMin_le l u hu
  have h2 := le_listMax l u hu
  have hdpos : 0 < listMax l - listMin l := by
    rcases lt_or_eq_of_le (by linarith : (0 : ℚ) ≤ listMax l - listMin l) with h | h
    · exact h
    · exact absurd h.symm hd
  have hr0 : 0 ≤ (u - listMin l) / (listMax l - listMin l) :=
    div_nonneg (by linarith) (le_of_lt hdpos)
  have hr1 : (u - listMin l) / (listMax l - listMin l) ≤ 1 := by
    rw [div_le_one hdpos]
    linarith
  constructor <;> linarith

theorem minMaxNorm_length (l : List ℚ) : (minMaxNorm l).length = l.length := by
  rw [minMaxNorm]
  split <;> simp

theorem flat_of_ptp_zero (l : List ℚ) (hd : listMax l - listMin l = 0) :
    ∀ v ∈ l, v = listMin l := by
  intro v hv
  have h1 := listMin_le l v hv
  have h2 := le_listMax l v hv
  linarith

theorem linspace01_pairwise (n : ℕ) : List.Pairwise (· < ·) (linspace01 n) := by
  rcases le_or_lt n 1 with h | h
  · have h01 : n = 0 ∨ n = 1 := by omega
    rcases h01 with rfl | rfl
    · rw [linspace01]
      simp only [List.range_zero, List.map_nil]
      exact List.Pairwise.nil
    · rw [linspace01]
      simp [List.range_succ]
  · rw [linspace01, List.pairwise_map]
    refine (List.pairwise_lt_range n).imp ?_
    intro i j hij
    rw [if_neg (by omega), if_neg (by omega)]
    have hpos : (0 : ℚ) < ((n - 1 : ℕ) : ℚ) := by
      have h1 : 0 < n - 1 := by omega
      exact_mod_cast h1
    rw [div_lt_div_iff hpos hpos]
    have hcast : (i : ℚ) < (j : ℚ) := by exact_mod_cast hij
    exact mul_lt_mul_of_pos_right hcast hpos

theorem pairwise_fst_zip :
    ∀ xs fs : List ℚ, List.Pairwise (· < ·) xs →
      List.Pairwise (fun a b : ℚ × ℚ => a.1 < b.1) (xs.zip fs)
  | [], _, _ => by simp
  | _ :: _, [], _ => by simp
  | x :: xs, f :: fs, h => by
    simp only [List.zip_cons_cons]
    refine List.Pairwise.cons ?_ (pairwise_fst_zip xs fs h.of_cons)
    intro pr hpr
    obtain ⟨a, b⟩ := pr
    exact List.rel_of_pairwise_cons h (List.of_mem_zip hpr).1

theorem interpLin_bounds (lo hi : ℚ) :
    ∀ (ps : List (ℚ × ℚ)) (t : ℚ), ps ≠ [] →
      List.Pairwise (fun a b : ℚ × ℚ => a.1 < b.1) ps →
      (∀ pr ∈ ps, lo ≤ pr.2 ∧ pr.2 ≤ hi) →
      lo ≤ interpLin ps t ∧ interpLin ps t ≤ hi
  | [], _, hne, _, _ => absurd rfl hne
  | [pr], t, _, _, hv => by
    simpa [interpLin] using hv pr (by simp)
  | pr0 :: pr1 :: rest, t, _, hpw, hv => by
    simp only [interpLin]
    split
    · exact hv pr0 (by simp)
    next h0 =>
      split
      next h1 =>
        have hx : pr0.1 < pr1.1 := List.rel_of_pairwise_cons hpw (by simp)
        have hd : 0 < pr1.1 - pr0.1 := by linarith
        push_neg at h0
        have hr0 : 0 ≤ (t - pr0.1) / (pr1.1 - pr0.1) :=
          div_nonneg (by linarith) (le_of_lt hd)
        have hr1 : (t - pr0.1) / (pr1.1 - pr0.1) ≤ 1 := by
          rw [div_le_one hd]
          linarith
        obtain ⟨hl0, hh0⟩ := hv pr0 (by simp)
        obtain ⟨hl1, hh1⟩ := hv pr1 (by simp)
        constructor
        · nlinarith [mul_nonneg (by linarith : (0 : ℚ) ≤ 1 - (t - pr0.1) / (pr1.1 - pr0.1))
              (by linarith : (0 : ℚ) ≤ pr0.2 - lo),
            mul_nonneg hr0 (by linarith : (0 : ℚ) ≤ pr1.2 - lo)]
        · nlinarith [mul_nonneg (by linarith : (0 : ℚ) ≤ 1 - (t - pr0.1) / (pr1.1 - pr0.1))
              (by linarith : (0 : ℚ) ≤ hi - pr0.2),
            mul_nonneg hr0 (by linarith : (0 : ℚ) ≤ hi - pr1.2)]
      next =>
        refine interpLin_bounds lo hi (pr1 :: rest) t (by simp) hpw.of_cons ?_
        intro pr hpr
        exact hv pr (List.mem_cons_of_mem pr0 hpr)

theorem resample_length (l : List ℚ) (tp : ℕ) : (resample l tp).length = tp := by
  rw [resample, List.length_map, linspace01, List.length_map, List.length_range]

theorem zip_linspace_ne_nil (l : List ℚ) (hl : l ≠ []) :
    (linspace01 l.length).zip l ≠ [] := by
  intro hnil
  have hlen : ((linspace01 l.length).zip l).length = l.length := by
    rw [List.length_zip, linspace01, List.length_map, List.length_range, min_self]
  rw [hnil] at hlen
  simp only [List.length_nil] at hlen
  exact hl (List.length_eq_zero.mp hlen.symm)

/-- C6: from any binarized image with at least one pixel column, waveform extraction
returns exactly `tp` samples; when the column sequence has nonzero range every sample
lies in [-1, 1], and when the range is zero the constant sequence passes through the
min-max step unscaled (no division by zero) and the output is that constant. -/
theorem extraction_output_spec (hgt : ℚ) (cols : List (List Bool)) (tp : ℕ)
    (hc : cols ≠ []) :
    (processImage hgt cols tp).length = tp ∧
    (listMax (scanCols hgt none cols) - listMin (scanCols hgt none cols) ≠ 0 →
      ∀ v ∈ processImage hgt cols tp, -1 ≤ v ∧ v ≤ 1) ∧
    (listMax (scanCols hgt none cols) - listMin (scanCols hgt none cols) = 0 →
      minMaxNorm (scanCols hgt none cols) = scanCols hgt none cols ∧
      ∀ v ∈ processImage hgt cols tp, v = listMin (scanCols hgt none cols)) := by
  have hrawlen : (scanCols hgt none cols).length = cols.length := scanCols_length hgt none cols
  have hrawne : scanCols hgt none cols ≠ [] := by
    intro h
    rw [h] at hrawlen
    exact hc (List.length_eq_zero.mp hrawlen.symm)
  refine ⟨resample_length _ tp, ?_, ?_⟩
  · intro hd v hv
    rw [processImage, resample] at hv
    obtain ⟨t, ht, rfl⟩ := List.mem_map.mp hv
    have hnne : minMaxNorm (scanCols hgt none cols) ≠ [] := by
      intro h
      have := minMaxNorm_length (scanCols hgt none cols)
      rw [h] at this
      exact hrawne (List.length_eq_zero.mp this.symm)
    refine interpLin_bounds (-1) 1 _ t (zip_linspace_ne_nil _ hnne)
      (pairwise_fst_zip _ _ (linspace01_pairwise _)) ?_
    intro pr hpr
    obtain ⟨a, b⟩ := pr
    exact minMaxNorm_bounds (scanCols hgt none cols) hd b (List.of_mem_zip hpr).2
  · intro hd
    have hmm : minMaxNorm (scanCols hgt none cols) = scanCols hgt none cols := by
      rw [minMaxNorm, if_neg (by simp [hd])]
    refine ⟨hmm, ?_⟩
    intro v hv
    rw [processImage, resample, hmm] at hv
    obtain ⟨t, ht, rfl⟩ := List.mem_map.mp hv
    have hb := interpLin_bounds (listMin (scanCols hgt none cols))
      (listMin (scanCols hgt none cols)) ((linspace01 (scanCols hgt none cols).length).zip
        (scanCols hgt none cols)) t (zip_linspace_ne_nil _ hrawne)
      (pairwise_fst_zip _ _ (linspace01_pairwise _)) ?_
    · exact le_antisymm hb.2 hb.1
    · intro pr hpr
      obtain ⟨a, b⟩ := pr
      have hbmem := (List.of_mem_zip hpr).2
      have := flat_of_ptp_zero (scanCols hgt none cols) hd b hbmem
      constructor <;> simp [this]

/-- Witness for C6 on the concrete 3-column test image resampled to 5 points. -/
theorem extraction_output_spec_witness :
    (processImage 4 exCols 5).length = 5 ∧
    (listMax (scanCols 4 none exCols) - listMin (scanCols 4 none exCols) ≠ 0 →
      ∀ v ∈ processImage 4 exCols 5, -1 ≤ v ∧ v ≤ 1) ∧
    (listMax (scanCols 4 none exCols) - listMin (scanCols 4 none exCols) = 0 →
      minMaxNorm (scanCols 4 none exCols) = scanCols 4 none exCols ∧
      ∀ v ∈ processImage 4 exCols 5, v = listMin (scanCols 4 none exCols)) :=
  extraction_output_spec 4 exCols 5 (by simp [exCols])

end CardioAI
